import Mathlib

/-!
Verification of the `libtools` repository: a shallow embedding of the
synchronization primitives of `thread.hh` (the `notifiable` flag, the
`PolymorphicThread` worker, the pulser family), of the path-compressing
`UnionFind` of `unionfind.hh`, and of the `Singleton` accessor.

Concurrency is embedded as labeled transition systems: the body of each
`run()` loop is a deterministic small-step function (`loopStep`), and
producer-side calls (`notify`, `wakeup`, `interrupt`, `kill`) are extra
transitions that may interleave with loop steps.  Machine state touched
by the code (`m_wake`, `m_interrupted`, tick counters, elapsed time) is
carried explicitly.  Time is a `Nat` counter advanced by the amount of
each `sleep_for`.
-/

namespace Libtools

/-! ## `notifiable` (`thread.hh`, lines 18–45): the waitable flag -/

/-- The `notifiable` state: the single boolean `m_wake` slot guarded by
`m_mutex`.  The mutex/condition pair serializes the three member
functions, so each of them is one atomic state transition here. -/
structure notifiable where
  m_wake : Bool
deriving DecidableEq, Repr

/-- A fresh `notifiable`: `bool m_wake = false`. -/
def notifiable.mkFresh : notifiable := ⟨false⟩

/-- `notify()`: sets `m_wake = true` (and wakes at most one waiter). -/
def notifiable.notify (n : notifiable) : notifiable := { n with m_wake := true }

/-- `wait()` returns without any further signal exactly when `m_wake`
already holds; otherwise the caller blocks in `m_condition.wait`. -/
def notifiable.canWait (n : notifiable) : Bool := n.m_wake

/-- The state after `wait()` returns: the `while` loop has seen
`m_wake = true` and the final line resets `m_wake = false`. -/
def notifiable.waitRet (n : notifiable) : notifiable := { n with m_wake := false }

/-- `try_wait()`: returns the pending bit and unconditionally resets it. -/
def notifiable.try_wait (n : notifiable) : Bool × notifiable :=
  (n.m_wake, { n with m_wake := false })

theorem notify_iterate (n : notifiable) (k : Nat) (hk : 1 ≤ k) :
    notifiable.notify^[k] n = n.notify := by
  induction k with
  | zero => exact absurd hk (by decide)
  | succ m ih =>
    rcases Nat.eq_zero_or_pos m with hm | hm
    · subst hm; rfl
    · rw [Function.iterate_succ_apply', ih hm]
      rfl

/-! ## `PolymorphicThread` (`thread.hh`, lines 50–68): the worker

`join()` and `detach()` forward directly to `std::thread`; on a handle
that does not represent an active execution (default-constructed, moved
from, already joined or detached — that is, `joinable() == false`) both
throw `std::system_error`.  `join()` on a joinable handle blocks the
caller until the spawned routine returns. -/

/-- The `std::thread` member: only its `joinable()` state matters. -/
structure StdThread where
  joinable : Bool
deriving DecidableEq, Repr

/-- The `std::system_error` raised by `join`/`detach` on a
non-joinable handle. -/
inductive ThreadErr where
  | invalidHandle : ThreadErr
deriving DecidableEq, Repr

/-- A `PolymorphicThread`: its `m_thread` handle, plus whether the
background execution of `run` has returned (observable only through a
successful `join`, which blocks until it has). -/
structure PolymorphicThread where
  m_thread : StdThread
  runReturned : Bool
deriving DecidableEq, Repr

/-- A default-constructed worker: `std::thread m_thread` holds no
execution, so `joinable()` is false, and nothing has run. -/
def PolymorphicThread.mkFresh : PolymorphicThread := ⟨⟨false⟩, false⟩

/-- `start(args...)`: `m_thread = std::thread(&run, this, args...)` —
the handle now owns a live execution and is joinable. -/
def PolymorphicThread.start (w : PolymorphicThread) : PolymorphicThread :=
  { w with m_thread := ⟨true⟩ }

/-- `join()`: `m_thread.join()`.  On a joinable handle it blocks until
the background routine has returned, then releases the handle; on a
non-joinable handle `std::thread::join` throws `std::system_error`. -/
def PolymorphicThread.join (w : PolymorphicThread) :
    Except ThreadErr PolymorphicThread :=
  if w.m_thread.joinable then
    .ok { m_thread := ⟨false⟩, runReturned := true }
  else
    .error .invalidHandle

/-- `detach()`: `m_thread.detach()`.  Releases ownership of the
execution; throws `std::system_error` on a non-joinable handle. -/
def PolymorphicThread.detach (w : PolymorphicThread) :
    Except ThreadErr PolymorphicThread :=
  if w.m_thread.joinable then
    .ok { w with m_thread := ⟨false⟩ }
  else
    .error .invalidHandle

/-- `active()`: `m_thread.joinable()`. -/
def PolymorphicThread.active (w : PolymorphicThread) : Bool :=
  w.m_thread.joinable

/-! ## `Singleton` (`singleton.hh`): process-wide instance accessor -/

/-- The static `_singleton` storage of `Singleton<T>`: a
`std::unique_ptr<T>`, embedded as `Option T`. -/
structure SingletonState (T : Type) where
  _singleton : Option T
deriving DecidableEq, Repr

/-- The static initializer `Singleton<T>::_singleton = nullptr`. -/
def SingletonState.mkFresh (T : Type) : SingletonState T := ⟨none⟩

/-- `init(args...)`: replaces `_singleton` by a freshly constructed
instance and returns a reference to it.  The constructed object is the
embedding parameter `v`. -/
def SingletonState.init (_s : SingletonState T) (v : T) : T × SingletonState T :=
  (v, ⟨some v⟩)

/-- `get()`: throws `std::runtime_error` when `_singleton` is null,
otherwise returns the stored instance. -/
def SingletonState.get (s : SingletonState T) : Except String T :=
  match s._singleton with
  | none => .error "ERROR: Access to unitialized object."
  | some v => .ok v

/-- `initialized()`: `bool(_singleton)`. -/
def SingletonState.initialized (s : SingletonState T) : Bool :=
  s._singleton.isSome

/-- `kill()`: `_singleton.reset()`. -/
def SingletonState.kill (_s : SingletonState T) : SingletonState T := ⟨none⟩

/-! ## `NotifiedPulser` (`thread.hh`, lines 189–219)

`run()` is `for (;;) { m_notifiablelock.wait(); if (m_interrupted) break;
tick(); }`.  The loop is cut at its suspension/checkpoints into four
phases: `waiting` (inside `wait()`), `checking` (after `wait()`
returned, about to test `m_interrupted`), `ticking` (inside `tick()`),
`stopped` (after `break`). -/

inductive NPPhase where
  | waiting : NPPhase
  | checking : NPPhase
  | ticking : NPPhase
  | stopped : NPPhase
deriving DecidableEq, Repr

/-- State of a `NotifiedPulser` together with its running loop:
the inherited `m_interrupted` flag (`PulserBase` constructor sets it
false), the `m_notifiablelock` flag, the loop phase, and the number of
`tick()` invocations so far. -/
structure NPState where
  m_notifiablelock : notifiable
  m_interrupted : Bool
  phase : NPPhase
  ticks : Nat
deriving DecidableEq, Repr

/-- The state right after `start()`: fresh flag, `m_interrupted(false)`,
loop about to block in `wait()`, no tick yet. -/
def NPState.init : NPState := ⟨notifiable.mkFresh, false, .waiting, 0⟩

/-- `wakeup()`: `m_notifiablelock.notify()`. -/
def NPState.wakeup (s : NPState) : NPState :=
  { s with m_notifiablelock := s.m_notifiablelock.notify }

/-- `interrupt()`: `m_interrupted = true`. -/
def NPState.interrupt (s : NPState) : NPState :=
  { s with m_interrupted := true }

/-- `kill()`: `interrupt(); wakeup();` — "Needed for the thread to
break". -/
def NPState.kill (s : NPState) : NPState := s.interrupt.wakeup

/-- One deterministic step of the loop of `run()`; `none` when the loop
cannot advance by itself (blocked inside `wait()` with no pending
signal, or already terminated). -/
def NPState.loopStep (s : NPState) : Option NPState :=
  match s.phase with
  | .waiting =>
    if s.m_notifiablelock.m_wake then
      some { s with m_notifiablelock := s.m_notifiablelock.waitRet, phase := .checking }
    else
      none
  | .checking =>
    if s.m_interrupted then
      some { s with phase := .stopped }
    else
      some { s with phase := .ticking, ticks := s.ticks + 1 }
  | .ticking => some { s with phase := .waiting }
  | .stopped => none

/-- Interleaving semantics: either the loop advances, or a producer
thread calls `wakeup()` or `interrupt()` (and `kill()` is the
composition of the two). -/
inductive NPStep : NPState → NPState → Prop where
  | loop (s s' : NPState) : s.loopStep = some s' → NPStep s s'
  | wakeup (s : NPState) : NPStep s s.wakeup
  | interrupt (s : NPState) : NPStep s s.interrupt

/-- Run up to `n` loop steps (stopping early when blocked). -/
def NPState.loopRun (s : NPState) : Nat → NPState
  | 0 => s
  | n + 1 =>
    match s.loopStep with
    | some s' => s'.loopRun n
    | none => s

theorem NPState.loopRun_reach (s : NPState) (n : Nat) :
    Relation.ReflTransGen NPStep s (s.loopRun n) := by
  induction n generalizing s with
  | zero => exact Relation.ReflTransGen.refl
  | succ m ih =>
    match h : s.loopStep with
    | some s' =>
      rw [NPState.loopRun, h]
      exact Relation.ReflTransGen.head (NPStep.loop s s' h) (ih s')
    | none =>
      rw [NPState.loopRun, h]

/-- One full sequential round: a producer calls `wakeup()`, then the
loop consumes it, checks the flag, runs `tick()` to completion and
re-arms its wait. -/
def NPState.round (s : NPState) : NPState := s.wakeup.loopRun 3

/-- `K` sequential `wakeup()` calls, each given time for the triggered
`tick()` to complete before the next. -/
def NPState.seqRounds : Nat → NPState
  | 0 => NPState.init
  | k + 1 => (NPState.seqRounds k).round

theorem NPState.seqRounds_eq (k : Nat) :
    NPState.seqRounds k = ⟨notifiable.mkFresh, false, .waiting, k⟩ := by
  induction k with
  | zero => rfl
  | succ m ih =>
    show (NPState.seqRounds m).round = _
    rw [ih]
    rfl

theorem NPState.seqRounds_reach (k : Nat) :
    Relation.ReflTransGen NPStep NPState.init (NPState.seqRounds k) := by
  induction k with
  | zero => exact Relation.ReflTransGen.refl
  | succ m ih =>
    refine Relation.ReflTransGen.trans ih ?_
    show Relation.ReflTransGen NPStep _ ((NPState.seqRounds m).wakeup.loopRun 3)
    exact Relation.ReflTransGen.head (NPStep.wakeup _)
      (NPState.loopRun_reach _ 3)

theorem NPState.kill_reach (s : NPState) :
    Relation.ReflTransGen NPStep s s.kill :=
  Relation.ReflTransGen.head (NPStep.interrupt s)
    (Relation.ReflTransGen.single (NPStep.wakeup s.interrupt))

/-! ## `ClockPulser` (`thread.hh`, lines 93–118)

`run()` is `while (true) { sleep_for(m_interval); if (m_interrupted)
break; tick(); }`.  The sleep always runs to completion — the
cancellation flag is only read after waking. -/

inductive CPPhase where
  | sleeping : CPPhase
  | checking : CPPhase
  | ticking : CPPhase
  | stopped : CPPhase
deriving DecidableEq, Repr

/-- State of a `ClockPulser` loop: `m_interrupted`, the loop phase, the
tick count, and elapsed time `now` (advanced by `m_interval` at each
completed `sleep_for`). -/
structure CPState where
  m_interrupted : Bool
  phase : CPPhase
  ticks : Nat
  now : Nat
deriving DecidableEq, Repr

/-- State right after `start()`: flag false, about to sleep, zero ticks,
time origin. -/
def CPState.init : CPState := ⟨false, .sleeping, 0, 0⟩

/-- `interrupt()`: `m_interrupted = true`. -/
def CPState.interrupt (s : CPState) : CPState := { s with m_interrupted := true }

/-- One deterministic loop step of `run()` with interval `T`.  Note the
`sleeping` case does not inspect `m_interrupted`: an interrupt arriving
mid-sleep still lets the full sleep elapse. -/
def CPState.loopStep (T : Nat) (s : CPState) : Option CPState :=
  match s.phase with
  | .sleeping => some { s with now := s.now + T, phase := .checking }
  | .checking =>
    if s.m_interrupted then
      some { s with phase := .stopped }
    else
      some { s with phase := .ticking, ticks := s.ticks + 1 }
  | .ticking => some { s with phase := .sleeping }
  | .stopped => none

/-- Interleaving semantics for a `ClockPulser` with interval `T`. -/
inductive CPStep (T : Nat) : CPState → CPState → Prop where
  | loop (s s' : CPState) : s.loopStep T = some s' → CPStep T s s'
  | interrupt (s : CPState) : CPStep T s s.interrupt

/-- Run up to `n` loop steps. -/
def CPState.loopRun (T : Nat) (s : CPState) : Nat → CPState
  | 0 => s
  | n + 1 =>
    match s.loopStep T with
    | some s' => s'.loopRun T n
    | none => s

/-- Invariant of the clock loop: past the first sleep the clock shows at
least one interval, and no tick ever happens earlier. -/
def CPInv (T : Nat) (s : CPState) : Prop :=
  (s.phase ≠ .sleeping → T ≤ s.now) ∧ (0 < s.ticks → T ≤ s.now)

theorem CPInv_init (T : Nat) : CPInv T CPState.init :=
  ⟨fun h => absurd rfl h, fun h => absurd h (by decide)⟩

theorem CPInv_step (T : Nat) (s s' : CPState) (hs : CPInv T s)
    (h : CPStep T s s') : CPInv T s' := by
  cases h with
  | interrupt => exact ⟨hs.1, hs.2⟩
  | loop _ hstep =>
    obtain ⟨mi, ph, tk, nw⟩ := s
    obtain ⟨h1, h2⟩ := hs
    cases ph with
    | sleeping =>
      simp only [CPState.loopStep] at hstep
      injection hstep with hstep
      subst hstep
      exact ⟨fun _ => Nat.le_add_left T nw, fun _ => Nat.le_add_left T nw⟩
    | checking =>
      have hnow : T ≤ nw := h1 (by simp)
      simp only [CPState.loopStep] at hstep
      cases mi with
      | true =>
        rw [if_pos rfl] at hstep
        injection hstep with hstep
        subst hstep
        exact ⟨fun _ => hnow, fun _ => hnow⟩
      | false =>
        rw [if_neg (by simp)] at hstep
        injection hstep with hstep
        subst hstep
        exact ⟨fun _ => hnow, fun _ => hnow⟩
    | ticking =>
      simp only [CPState.loopStep] at hstep
      injection hstep with hstep
      subst hstep
      exact ⟨fun hc => absurd rfl hc, h2⟩
    | stopped =>
      simp only [CPState.loopStep] at hstep
      exact Option.noConfusion hstep

theorem CPInv_reach (T : Nat) (s : CPState)
    (h : Relation.ReflTransGen (CPStep T) CPState.init s) : CPInv T s := by
  induction h with
  | refl => exact CPInv_init T
  | tail _ hstep ih => exact CPInv_step T _ _ ih hstep

/-! ## `DelayedNotifiedPulser` (`thread.hh`, lines 224–247)

`run()` is `for (;;) { m_notifiablelock.wait(); if (m_interrupted)
break; tick(); sleep_for(m_delay); }` — as `NotifiedPulser` but with a
post-tick sleep of `m_delay` before the wait is re-armed. -/

inductive DNPPhase where
  | waiting : DNPPhase
  | checking : DNPPhase
  | ticking : DNPPhase
  | delaying : DNPPhase
  | stopped : DNPPhase
deriving DecidableEq, Repr

/-- State of a `DelayedNotifiedPulser` loop.  `now` is elapsed time
(advanced by each completed `sleep_for(m_delay)` and by arbitrary
ambient time passage), and `tickTimes` records, newest first, the time
at which each `tick()` was entered. -/
structure DNPState where
  m_notifiablelock : notifiable
  m_interrupted : Bool
  phase : DNPPhase
  ticks : Nat
  now : Nat
  tickTimes : List Nat
deriving DecidableEq, Repr

/-- State right after `start()`. -/
def DNPState.init : DNPState := ⟨notifiable.mkFresh, false, .waiting, 0, 0, []⟩

/-- `wakeup()` (inherited): `m_notifiablelock.notify()`. -/
def DNPState.wakeup (s : DNPState) : DNPState :=
  { s with m_notifiablelock := s.m_notifiablelock.notify }

/-- `interrupt()` (inherited): `m_interrupted = true`. -/
def DNPState.interrupt (s : DNPState) : DNPState :=
  { s with m_interrupted := true }

/-- `kill()` (inherited): `interrupt(); wakeup();`. -/
def DNPState.kill (s : DNPState) : DNPState := s.interrupt.wakeup

/-- One deterministic loop step of `run()` with post-tick delay `D`. -/
def DNPState.loopStep (D : Nat) (s : DNPState) : Option DNPState :=
  match s.phase with
  | .waiting =>
    if s.m_notifiablelock.m_wake then
      some { s with m_notifiablelock := s.m_notifiablelock.waitRet, phase := .checking }
    else
      none
  | .checking =>
    if s.m_interrupted then
      some { s with phase := .stopped }
    else
      some { s with phase := .ticking, ticks := s.ticks + 1, tickTimes := s.now :: s.tickTimes }
  | .ticking => some { s with phase := .delaying }
  | .delaying => some { s with phase := .waiting, now := s.now + D }
  | .stopped => none

/-- Interleaving semantics: loop steps, producer `wakeup()`/
`interrupt()`, and ambient time passage `elapse`. -/
inductive DNPStep (D : Nat) : DNPState → DNPState → Prop where
  | loop (s s' : DNPState) : s.loopStep D = some s' → DNPStep D s s'
  | wakeup (s : DNPState) : DNPStep D s s.wakeup
  | interrupt (s : DNPState) : DNPStep D s s.interrupt
  | elapse (s : DNPState) (d : Nat) : DNPStep D s { s with now := s.now + d }

/-- Consecutive recorded tick times (newest first) are at least `D`
apart. -/
def gapOK (D : Nat) : List Nat → Prop
  | [] => True
  | [_] => True
  | a :: b :: l => b + D ≤ a ∧ gapOK D (b :: l)

/-- Invariant of the delayed loop: recorded tick times are `D`-spaced,
no recorded time is in the future, and whenever the wait is armed (or
the flag is about to be checked) at least `D` has passed since the last
tick. -/
def DNPInv (D : Nat) (s : DNPState) : Prop :=
  gapOK D s.tickTimes ∧
  (∀ t l, s.tickTimes = t :: l →
    t ≤ s.now ∧ ((s.phase = .waiting ∨ s.phase = .checking) → t + D ≤ s.now))

theorem DNPInv_init (D : Nat) : DNPInv D DNPState.init :=
  ⟨trivial, fun t l h => List.noConfusion h⟩

theorem DNPInv_step (D : Nat) (s s' : DNPState) (hs : DNPInv D s)
    (h : DNPStep D s s') : DNPInv D s' := by
  obtain ⟨h1, h2⟩ := hs
  cases h with
  | wakeup => exact ⟨h1, fun t l ht => h2 t l ht⟩
  | interrupt => exact ⟨h1, fun t l ht => h2 t l ht⟩
  | elapse d =>
    refine ⟨h1, fun t l ht => ?_⟩
    obtain ⟨ha, hb⟩ := h2 t l ht
    exact ⟨Nat.le_trans ha (Nat.le_add_right _ _),
      fun hp => Nat.le_trans (hb hp) (Nat.le_add_right _ _)⟩
  | loop _ hstep =>
    obtain ⟨fl, mi, ph, tk, nw, tt⟩ := s
    cases ph with
    | waiting =>
      simp only [DNPState.loopStep] at hstep
      cases hw : fl.m_wake with
      | false => rw [hw, if_neg (by simp)] at hstep; exact Option.noConfusion hstep
      | true =>
        rw [hw, if_pos rfl] at hstep
        injection hstep with hstep
        subst hstep
        refine ⟨h1, fun t l ht => ?_⟩
        obtain ⟨ha, hb⟩ := h2 t l ht
        exact ⟨ha, fun _ => hb (Or.inl rfl)⟩
    | checking =>
      simp only [DNPState.loopStep] at hstep
      cases mi with
      | true =>
        rw [if_pos rfl] at hstep
        injection hstep with hstep
        subst hstep
        refine ⟨h1, fun t l ht => ?_⟩
        obtain ⟨ha, _⟩ := h2 t l ht
        exact ⟨ha, fun hp => by rcases hp with hp | hp <;> exact DNPPhase.noConfusion hp⟩
      | false =>
        rw [if_neg (by simp)] at hstep
        injection hstep with hstep
        subst hstep
        constructor
        · show gapOK D (nw :: tt)
          match tt, h1 with
          | [], _ => trivial
          | t :: l, h1 =>
            exact ⟨(h2 t l rfl).2 (Or.inr rfl), h1⟩
        · intro t l ht
          injection ht with ht1 ht2
          subst ht1
          exact ⟨Nat.le_refl _, fun hp => by rcases hp with hp | hp <;> exact DNPPhase.noConfusion hp⟩
    | ticking =>
      simp only [DNPState.loopStep] at hstep
      injection hstep with hstep
      subst hstep
      refine ⟨h1, fun t l ht => ?_⟩
      obtain ⟨ha, _⟩ := h2 t l ht
      exact ⟨ha, fun hp => by rcases hp with hp | hp <;> exact DNPPhase.noConfusion hp⟩
    | delaying =>
      simp only [DNPState.loopStep] at hstep
      injection hstep with hstep
      subst hstep
      refine ⟨h1, fun t l ht => ?_⟩
      obtain ⟨ha, _⟩ := h2 t l ht
      exact ⟨Nat.le_trans ha (Nat.le_add_right _ _),
        fun _ => Nat.add_le_add ha (Nat.le_refl D)⟩
    | stopped =>
      simp only [DNPState.loopStep] at hstep
      exact Option.noConfusion hstep

theorem DNPInv_reach (D : Nat) (s : DNPState)
    (h : Relation.ReflTransGen (DNPStep D) DNPState.init s) : DNPInv D s := by
  induction h with
  | refl => exact DNPInv_init D
  | tail _ hstep ih => exact DNPInv_step D _ _ ih hstep

/-! ## `SelfDeletingTimer` (`thread.hh`, lines 252–290)

`run()` is `sleep_for(m_interval); if (!m_interrupted) tick();
delete this;` where `tick()` invokes `m_callback`.  `start()` spawns
the thread and immediately detaches it. -/

inductive SDTPhase where
  | sleeping : SDTPhase
  | checking : SDTPhase
  | done : SDTPhase
deriving DecidableEq, Repr

/-- State of a started `SelfDeletingTimer`: the inherited flag, where
the (single-pass) run routine stands, how many times the callback has
fired (and at what time), whether `delete this` has executed, and
elapsed time. -/
structure SDTState where
  m_interrupted : Bool
  phase : SDTPhase
  fires : Nat
  fireTime : Option Nat
  deleted : Bool
  now : Nat
deriving DecidableEq, Repr

/-- State right after `start()`: asleep in `sleep_for(m_interval)`. -/
def SDTState.init : SDTState := ⟨false, .sleeping, 0, none, false, 0⟩

/-- `interrupt()` (inherited): `m_interrupted = true`. -/
def SDTState.interrupt (s : SDTState) : SDTState :=
  { s with m_interrupted := true }

/-- One deterministic step of the run routine with delay `T`: the sleep
completes unconditionally; then the flag is checked once, the callback
fires only if it was still clear, and `delete this` runs regardless. -/
def SDTState.loopStep (T : Nat) (s : SDTState) : Option SDTState :=
  match s.phase with
  | .sleeping => some { s with now := s.now + T, phase := .checking }
  | .checking =>
    some { s with
      phase := .done
      deleted := true
      fires := if s.m_interrupted then s.fires else s.fires + 1
      fireTime := if s.m_interrupted then s.fireTime else some s.now }
  | .done => none

/-- Interleaving semantics: run-routine steps and `interrupt()`. -/
inductive SDTStep (T : Nat) : SDTState → SDTState → Prop where
  | loop (s s' : SDTState) : s.loopStep T = some s' → SDTStep T s s'
  | interrupt (s : SDTState) : SDTStep T s s.interrupt

/-- Run up to `n` steps of the run routine. -/
def SDTState.loopRun (T : Nat) (s : SDTState) : Nat → SDTState
  | 0 => s
  | n + 1 =>
    match s.loopStep T with
    | some s' => s'.loopRun T n
    | none => s

/-- Invariant of the timer: once past the sleep at least `T` has
elapsed, the callback fired at most once and only at a time `≥ T`, no
fire happens before `done`, and `delete this` has run exactly when the
routine is finished. -/
def SDTInv (T : Nat) (s : SDTState) : Prop :=
  (s.phase ≠ .sleeping → T ≤ s.now) ∧
  s.fires ≤ 1 ∧
  (s.phase ≠ .done → s.fires = 0) ∧
  (s.deleted = true ↔ s.phase = .done) ∧
  (∀ t, s.fireTime = some t → T ≤ t)

theorem SDTInv_init (T : Nat) : SDTInv T SDTState.init :=
  ⟨fun h => absurd rfl h, by decide, fun _ => rfl,
    by constructor <;> (intro h; exact absurd h (by decide)),
    fun t ht => Option.noConfusion ht⟩

theorem SDTInv_step (T : Nat) (s s' : SDTState) (hs : SDTInv T s)
    (h : SDTStep T s s') : SDTInv T s' := by
  obtain ⟨h1, h2, h3, h4, h5⟩ := hs
  cases h with
  | interrupt => exact ⟨h1, h2, h3, h4, h5⟩
  | loop _ hstep =>
    obtain ⟨mi, ph, fi, ft, de, nw⟩ := s
    cases ph with
    | sleeping =>
      simp only [SDTState.loopStep] at hstep
      injection hstep with hstep
      subst hstep
      refine ⟨fun _ => Nat.le_add_left T nw, h2, fun _ => h3 (by intro hc; cases hc), ?_, h5⟩
      simp only at h4 ⊢
      rw [h4]
      constructor <;> (intro hc; cases hc)
    | checking =>
      have hnow : T ≤ nw := h1 (by intro hc; cases hc)
      have hfi : fi = 0 := h3 (by intro hc; cases hc)
      simp only [SDTState.loopStep] at hstep
      injection hstep with hstep
      subst hstep
      subst hfi
      refine ⟨fun _ => hnow, ?_, fun hc => absurd rfl hc, by simp, ?_⟩
      · cases mi <;> simp
      · intro t ht
        cases mi with
        | true => exact h5 t ht
        | false =>
          simp only [if_neg (by simp : ¬(false = true))] at ht
          injection ht with ht
          rw [← ht]
          exact hnow
    | done =>
      simp only [SDTState.loopStep] at hstep
      exact Option.noConfusion hstep

theorem SDTInv_reach (T : Nat) (s : SDTState)
    (h : Relation.ReflTransGen (SDTStep T) SDTState.init s) : SDTInv T s := by
  induction h with
  | refl => exact SDTInv_init T
  | tail _ hstep ih => exact SDTInv_step T _ _ ih hstep

/-- After `m_interrupted` is set, no step can make the callback fire:
the flag never clears and the one check suppresses `tick()`. -/
theorem SDT_interrupted_step (T : Nat) (s s' : SDTState)
    (hi : s.m_interrupted = true) (h : SDTStep T s s') :
    s'.m_interrupted = true ∧ s'.fires = s.fires := by
  cases h with
  | interrupt => exact ⟨rfl, rfl⟩
  | loop _ hstep =>
    obtain ⟨mi, ph, fi, ft, de, nw⟩ := s
    simp only at hi
    subst hi
    cases ph with
    | sleeping =>
      simp only [SDTState.loopStep] at hstep
      injection hstep with hstep
      subst hstep
      exact ⟨rfl, rfl⟩
    | checking =>
      simp only [SDTState.loopStep] at hstep
      injection hstep with hstep
      subst hstep
      exact ⟨rfl, by simp⟩
    | done =>
      simp only [SDTState.loopStep] at hstep
      exact Option.noConfusion hstep

theorem SDT_interrupted_reach (T : Nat) (s s' : SDTState)
    (hi : s.m_interrupted = true)
    (h : Relation.ReflTransGen (SDTStep T) s s') :
    s'.m_interrupted = true ∧ s'.fires = s.fires := by
  induction h with
  | refl => exact ⟨hi, rfl⟩
  | tail _ hstep ih =>
    obtain ⟨ha, hb⟩ := SDT_interrupted_step T _ _ ih.1 hstep
    exact ⟨ha, hb.trans ih.2⟩

/-! ## `UnionFind` (`unionfind.hh`)

`m_mapping` is embedded as a partial father map `T → Option T` (absent
key — `at` throws `std::out_of_range` — means the element is a root),
together with the acyclicity of father links that the C++ container
maintains implicitly (and that `find`'s recursion relies on for
termination). -/

/-- The step relation on the parent map: `p` is the recorded father of `j`. -/
def parentRel (m : T → Option T) : T → T → Prop := fun p j => m j = some p

/-- Root lookup without compression. -/
def rootOf (m : T → Option T) (wf : WellFounded (parentRel m)) (a : T) : T :=
  match h : m a with
  | none => a
  | some p => rootOf m wf p
termination_by wf.wrap a
decreasing_by exact h

theorem rootOf_none (m : T → Option T) (wf : WellFounded (parentRel m)) (a : T)
    (h : m a = none) : rootOf m wf a = a := by
  rw [rootOf, h]

theorem rootOf_some (m : T → Option T) (wf : WellFounded (parentRel m)) (a p : T)
    (h : m a = some p) : rootOf m wf a = rootOf m wf p := by
  rw [rootOf, h]

theorem rootOf_isRoot (m : T → Option T) (wf : WellFounded (parentRel m)) (a : T) :
    m (rootOf m wf a) = none := by
  rw [rootOf]
  split
  · assumption
  · exact rootOf_isRoot m wf _
termination_by wf.wrap a
decreasing_by assumption

theorem transGen_rootOf (m : T → Option T) (wf : WellFounded (parentRel m)) (a p : T)
    (h : m a = some p) : Relation.TransGen (parentRel m) (rootOf m wf a) a := by
  rw [rootOf_some m wf a p h]
  match hp : m p with
  | none =>
    rw [rootOf_none m wf p hp]
    exact Relation.TransGen.single h
  | some q =>
    exact Relation.TransGen.tail (transGen_rootOf m wf p q hp) h
termination_by wf.wrap a
decreasing_by exact h

/-- Path-compressing find on the raw map, mirroring `UnionFind::find`:
follow the father link, recursively find the root, and rewrite the
father link of `a` to point directly at the root. -/
def findAux [DecidableEq T] (m : T → Option T) (wf : WellFounded (parentRel m)) (a : T) :
    T × (T → Option T) :=
  match h : m a with
  | none => (a, m)
  | some p =>
    let res := findAux m wf p
    (res.1, fun x => if x = a then some res.1 else res.2 x)
termination_by wf.wrap a
decreasing_by exact h

theorem findAux_fst [DecidableEq T] (m : T → Option T) (wf : WellFounded (parentRel m)) (a : T) :
    (findAux m wf a).1 = rootOf m wf a := by
  rw [findAux, rootOf]
  split
  · rfl
  · exact findAux_fst m wf _
termination_by wf.wrap a
decreasing_by assumption

theorem findAux_snd [DecidableEq T] (m : T → Option T) (wf : WellFounded (parentRel m)) (a x : T) :
    (findAux m wf a).2 x = m x ∨
      ((findAux m wf a).2 x = some (rootOf m wf x) ∧ m x ≠ none) := by
  rw [findAux]
  split
  · exact Or.inl rfl
  · next p h =>
    simp only
    by_cases hx : x = a
    · subst hx
      refine Or.inr ⟨?_, by simp [h]⟩
      rw [if_pos rfl, findAux_fst, rootOf_some m wf x p h]
    · rw [if_neg hx]
      exact findAux_snd m wf p x
termination_by wf.wrap a
decreasing_by assumption

theorem findAux_none [DecidableEq T] (m : T → Option T) (wf : WellFounded (parentRel m))
    (a x : T) (h : m x = none) : (findAux m wf a).2 x = none := by
  rcases findAux_snd m wf a x with h1 | ⟨_, h2⟩
  · rw [h1, h]
  · exact absurd h h2

theorem wf_findAux [DecidableEq T] (m : T → Option T) (wf : WellFounded (parentRel m)) (a : T) :
    WellFounded (parentRel ((findAux m wf a).2)) := by
  refine Subrelation.wf (r := Relation.TransGen (parentRel m)) ?_ wf.transGen
  intro p j hpj
  have hpj2 : (findAux m wf a).2 j = some p := hpj
  rcases findAux_snd m wf a j with h1 | ⟨h2, h3⟩
  · have h4 : m j = some p := h1 ▸ hpj2
    exact Relation.TransGen.single h4
  · rw [hpj2] at h2
    obtain ⟨q, hq⟩ := Option.ne_none_iff_exists'.mp h3
    injection h2 with h2
    rw [h2]
    exact transGen_rootOf m wf j q hq

theorem rootOf_findAux [DecidableEq T] (m : T → Option T) (wf : WellFounded (parentRel m))
    (a : T) (wf2 : WellFounded (parentRel ((findAux m wf a).2))) (x : T) :
    rootOf ((findAux m wf a).2) wf2 x = rootOf m wf x := by
  rcases findAux_snd m wf a x with h1 | ⟨h2, h3⟩
  · match hx : m x with
    | none => rw [rootOf_none _ wf2 x (h1.trans hx), rootOf_none m wf x hx]
    | some p =>
      rw [rootOf_some _ wf2 x p (h1.trans hx), rootOf_some m wf x p hx]
      exact rootOf_findAux m wf a wf2 p
  · rw [rootOf_some _ wf2 x _ h2]
    have hroot : (findAux m wf a).2 (rootOf m wf x) = none :=
      findAux_none m wf a _ (rootOf_isRoot m wf x)
    rw [rootOf_none _ wf2 _ hroot]
termination_by wf.wrap x
decreasing_by exact hx

/-- `std::map::emplace`: insert `k ↦ v` only when `k` has no entry yet. -/
def emplaceM [DecidableEq T] (m : T → Option T) (k v : T) : T → Option T :=
  fun x => if x = k then
    match m k with
    | none => some v
    | some w => some w
  else m x

theorem emplaceM_of_none [DecidableEq T] (m : T → Option T) (k v : T) (h : m k = none) :
    emplaceM m k v = fun x => if x = k then some v else m x := by
  funext x
  simp only [emplaceM, h]

theorem wf_emplaceM [DecidableEq T] (m : T → Option T) (wf : WellFounded (parentRel m))
    (ra rb : T) (hrb : m rb = none) (hra : m ra = none) (hne : ra ≠ rb) :
    WellFounded (parentRel (emplaceM m rb ra)) := by
  rw [emplaceM_of_none m rb ra hrb]
  constructor
  intro x
  induction x using wf.induction with
  | _ x ih =>
    constructor
    intro p hp
    unfold parentRel at hp
    simp only at hp
    by_cases hx : x = rb
    · rw [if_pos hx] at hp
      injection hp with hp
      subst hp
      constructor
      intro q hq
      unfold parentRel at hq
      simp only [if_neg hne, hra] at hq
      exact Option.noConfusion hq
    · rw [if_neg hx] at hp
      exact ih p hp

theorem rootOf_emplaceM [DecidableEq T] (m : T → Option T) (wf : WellFounded (parentRel m))
    (ra rb : T) (hrb : m rb = none) (hra : m ra = none) (hne : ra ≠ rb)
    (wf2 : WellFounded (parentRel (emplaceM m rb ra))) (x : T) :
    rootOf (emplaceM m rb ra) wf2 x =
      if rootOf m wf x = rb then ra else rootOf m wf x := by
  match hx : m x with
  | none =>
    rw [rootOf_none m wf x hx]
    by_cases hxr : x = rb
    · subst hxr
      rw [if_pos rfl]
      have h1 : emplaceM m x ra x = some ra := by simp [emplaceM, hx]
      rw [rootOf_some _ wf2 x ra h1]
      have h2 : emplaceM m x ra ra = none := by simp [emplaceM, hx, hne, hra]
      exact rootOf_none _ wf2 ra h2
    · rw [if_neg hxr]
      have h1 : emplaceM m rb ra x = none := by simp [emplaceM, hxr, hx]
      exact rootOf_none _ wf2 x h1
  | some p =>
    have hxr : x ≠ rb := fun h => by rw [h, hrb] at hx; exact Option.noConfusion hx
    have h1 : emplaceM m rb ra x = some p := by simp [emplaceM, hxr, hx]
    rw [rootOf_some _ wf2 x p h1, rootOf_some m wf x p hx]
    exact rootOf_emplaceM m wf ra rb hrb hra hne wf2 p
termination_by wf.wrap x
decreasing_by exact hx

/-- `UnionFind`, embedding `m_mapping` as the partial father map together
with the (implicit in C++) guarantee that father links are acyclic. -/
structure UnionFind (T : Type) [DecidableEq T] where
  m_mapping : T → Option T
  wf : WellFounded (parentRel m_mapping)

/-- Semantic root of the component of `a` (no mutation). -/
def UnionFind.root [DecidableEq T] (u : UnionFind T) (a : T) : T :=
  rootOf u.m_mapping u.wf a

/-- `UnionFind::find`: returns the root and the path-compressed structure. -/
def UnionFind.find [DecidableEq T] (u : UnionFind T) (a : T) : T × UnionFind T :=
  let res := findAux u.m_mapping u.wf a
  (res.1, ⟨res.2, wf_findAux u.m_mapping u.wf a⟩)

theorem UnionFind.find_fst [DecidableEq T] (u : UnionFind T) (a : T) :
    (u.find a).1 = u.root a :=
  findAux_fst u.m_mapping u.wf a

theorem UnionFind.find_snd_root [DecidableEq T] (u : UnionFind T) (a x : T) :
    (u.find a).2.root x = u.root x :=
  rootOf_findAux u.m_mapping u.wf a _ x

theorem UnionFind.root_isRoot [DecidableEq T] (u : UnionFind T) (a : T) :
    u.m_mapping (u.root a) = none :=
  rootOf_isRoot u.m_mapping u.wf a

theorem UnionFind.find_snd_none [DecidableEq T] (u : UnionFind T) (a x : T)
    (h : u.m_mapping x = none) : (u.find a).2.m_mapping x = none :=
  findAux_none u.m_mapping u.wf a x h

theorem UnionFind.find_root_none [DecidableEq T] (u : UnionFind T) (a : T) :
    (u.find a).2.m_mapping ((u.find a).1) = none := by
  have h1 : (u.find a).1 = u.root a := UnionFind.find_fst u a
  rw [h1]
  exact UnionFind.find_snd_none u a _ (UnionFind.root_isRoot u a)

/-- `UnionFind::merge`: find the two roots (compressing both paths), then
link root of `b` underneath root of `a` when the two components differ. -/
def UnionFind.merge [DecidableEq T] (u : UnionFind T) (a b : T) : UnionFind T :=
  if h : (u.find a).1 ≠ ((u.find a).2.find b).1 then
    ⟨emplaceM ((u.find a).2.find b).2.m_mapping ((u.find a).2.find b).1 (u.find a).1,
      wf_emplaceM _ ((u.find a).2.find b).2.wf _ _
        (UnionFind.find_root_none (u.find a).2 b)
        (UnionFind.find_snd_none (u.find a).2 b _ (UnionFind.find_root_none u a))
        h⟩
  else ((u.find a).2.find b).2

theorem UnionFind.merge_root [DecidableEq T] (u : UnionFind T) (a b x : T) :
    (u.merge a b).root x = if u.root x = u.root b then u.root a else u.root x := by
  have hfa : (u.find a).1 = u.root a := UnionFind.find_fst u a
  have hfb : ((u.find a).2.find b).1 = u.root b := by
    rw [UnionFind.find_fst (u.find a).2 b, UnionFind.find_snd_root u a b]
  have hm2root : ∀ y, ((u.find a).2.find b).2.root y = u.root y := by
    intro y
    rw [UnionFind.find_snd_root (u.find a).2 b y, UnionFind.find_snd_root u a y]
  unfold UnionFind.merge
  split
  · next h =>
    show rootOf _ _ x = _
    rw [rootOf_emplaceM _ ((u.find a).2.find b).2.wf _ _
      (UnionFind.find_root_none (u.find a).2 b)
      (UnionFind.find_snd_none (u.find a).2 b _ (UnionFind.find_root_none u a)) h _ x]
    show (if ((u.find a).2.find b).2.root x = _ then _ else ((u.find a).2.find b).2.root x) = _
    rw [hm2root x, hfa, hfb]
  · next h =>
    rw [not_not] at h
    rw [hm2root x]
    rw [hfa, hfb] at h
    by_cases hx : u.root x = u.root b
    · rw [if_pos hx]
      exact hx.trans h.symm
    · rw [if_neg hx]

/-- A freshly constructed `UnionFind` has an empty mapping. -/
def UnionFind.emptyUF (T : Type) [DecidableEq T] : UnionFind T :=
  ⟨fun _ => none, ⟨fun a => Acc.intro a (fun _ h => Option.noConfusion h)⟩⟩

/-- All keys and values of the mapping satisfy `P`. -/
def UnionFind.MappedWithin [DecidableEq T] (u : UnionFind T) (P : T → Prop) : Prop :=
  ∀ x y, u.m_mapping x = some y → P x ∧ P y

theorem rootOf_mem (m : T → Option T) (wf : WellFounded (parentRel m)) (P : T → Prop)
    (hm : ∀ x y, m x = some y → P x ∧ P y) (a p : T) (h : m a = some p) :
    P (rootOf m wf a) := by
  rw [rootOf_some m wf a p h]
  match hp : m p with
  | none => rw [rootOf_none m wf p hp]; exact (hm a p h).2
  | some q => exact rootOf_mem m wf P hm p q hp
termination_by wf.wrap a
decreasing_by exact h

theorem rootOf_within (m : T → Option T) (wf : WellFounded (parentRel m)) (P : T → Prop)
    (hm : ∀ x y, m x = some y → P x ∧ P y) (a : T) :
    rootOf m wf a = a ∨ P (rootOf m wf a) := by
  match h : m a with
  | none => exact Or.inl (rootOf_none m wf a h)
  | some p => exact Or.inr (rootOf_mem m wf P hm a p h)

theorem UnionFind.find_within [DecidableEq T] (u : UnionFind T) (P : T → Prop)
    (hm : u.MappedWithin P) (c : T) : (u.find c).2.MappedWithin P := by
  intro x y hxy
  have hxy0 : (findAux u.m_mapping u.wf c).2 x = some y := hxy
  rcases findAux_snd u.m_mapping u.wf c x with h1 | ⟨h2, h3⟩
  · exact hm x y (h1 ▸ hxy0)
  · rw [h2] at hxy0
    injection hxy0 with hxy2
    obtain ⟨w, hw⟩ := Option.ne_none_iff_exists'.mp h3
    refine ⟨(hm x w hw).1, ?_⟩
    rw [← hxy2]
    exact rootOf_mem u.m_mapping u.wf P hm x w hw

theorem UnionFind.merge_within [DecidableEq T] (u : UnionFind T) (P : T → Prop)
    (hm : u.MappedWithin P) (a b : T) (ha : P a) (hb : P b) :
    (u.merge a b).MappedWithin P := by
  have hm1 : (u.find a).2.MappedWithin P := u.find_within P hm a
  have hm2 : ((u.find a).2.find b).2.MappedWithin P := (u.find a).2.find_within P hm1 b
  have hra : P ((u.find a).1) := by
    rw [UnionFind.find_fst u a]
    rcases rootOf_within u.m_mapping u.wf P hm a with h | h
    · rw [show u.root a = rootOf u.m_mapping u.wf a from rfl, h]; exact ha
    · exact h
  have hrb : P (((u.find a).2.find b).1) := by
    rw [UnionFind.find_fst (u.find a).2 b]
    rcases rootOf_within (u.find a).2.m_mapping (u.find a).2.wf P hm1 b with h | h
    · rw [show (u.find a).2.root b = rootOf (u.find a).2.m_mapping (u.find a).2.wf b from rfl, h]
      exact hb
    · exact h
  unfold UnionFind.merge
  split
  · intro x y hxy
    simp only [emplaceM, UnionFind.find_root_none (u.find a).2 b] at hxy
    by_cases hx : x = ((u.find a).2.find b).1
    · rw [if_pos hx] at hxy
      injection hxy with hxy
      exact ⟨hx ▸ hrb, hxy ▸ hra⟩
    · rw [if_neg hx] at hxy
      exact hm2 x y hxy
  · exact hm2

/-- Folding `merge` over a list of requested merges, starting from empty. -/
def UnionFind.mergeList (T : Type) [DecidableEq T] (l : List (T × T)) : UnionFind T :=
  l.foldl (fun u p => u.merge p.1 p.2) (UnionFind.emptyUF T)

theorem UnionFind.foldl_within [DecidableEq T] (l : List (T × T)) (u : UnionFind T)
    (P : T → Prop) (hm : u.MappedWithin P) (hl : ∀ p ∈ l, P p.1 ∧ P p.2) :
    (l.foldl (fun u p => u.merge p.1 p.2) u).MappedWithin P := by
  induction l generalizing u with
  | nil => exact hm
  | cons p rest ih =>
    have hp := hl p (List.mem_cons_self p rest)
    exact ih (u.merge p.1 p.2) (u.merge_within P hm p.1 p.2 hp.1 hp.2)
      (fun q hq => hl q (List.mem_cons_of_mem p hq))

theorem UnionFind.mergeList_unmerged [DecidableEq T] (l : List (T × T)) (a : T)
    (h : ∀ p ∈ l, p.1 ≠ a ∧ p.2 ≠ a) : ((UnionFind.mergeList T l).find a).1 = a := by
  have hm : (UnionFind.mergeList T l).MappedWithin (fun x => x ≠ a) := by
    refine UnionFind.foldl_within l (UnionFind.emptyUF T) _ ?_ h
    intro x y hxy
    exact Option.noConfusion hxy
  have hnone : (UnionFind.mergeList T l).m_mapping a = none := by
    match hmap : (UnionFind.mergeList T l).m_mapping a with
    | none => rfl
    | some y => exact absurd rfl (hm a y hmap).1
  rw [UnionFind.find_fst]
  exact rootOf_none _ _ a hnone


/-! ## Helper lemmas about the `NotifiedPulser` loop -/

/-- No loop step modifies `m_interrupted`. -/
theorem NP_loopStep_flag (s s' : NPState) (h : s.loopStep = some s') :
    s'.m_interrupted = s.m_interrupted := by
  obtain ⟨fl, mi, ph, tk⟩ := s
  cases ph with
  | waiting =>
    simp only [NPState.loopStep] at h
    cases hw : fl.m_wake with
    | false => rw [hw, if_neg (by simp)] at h; exact Option.noConfusion h
    | true =>
      rw [hw, if_pos rfl] at h
      injection h with h
      subst h
      rfl
  | checking =>
    simp only [NPState.loopStep] at h
    cases mi with
    | true =>
      rw [if_pos rfl] at h
      injection h with h
      subst h
      rfl
    | false =>
      rw [if_neg (by simp)] at h
      injection h with h
      subst h
      rfl
  | ticking =>
    simp only [NPState.loopStep] at h
    injection h with h
    subst h
    rfl
  | stopped =>
    simp only [NPState.loopStep] at h
    exact Option.noConfusion h

/-- A step increments the tick count only from an un-interrupted check,
and otherwise leaves it unchanged. -/
theorem NP_step_ticks (s s' : NPState) (h : NPStep s s') :
    s'.ticks = s.ticks ∨
      (s'.ticks = s.ticks + 1 ∧ s.phase = .checking ∧ s.m_interrupted = false) := by
  cases h with
  | wakeup => exact Or.inl rfl
  | interrupt => exact Or.inl rfl
  | loop _ hstep =>
    obtain ⟨fl, mi, ph, tk⟩ := s
    cases ph with
    | waiting =>
      simp only [NPState.loopStep] at hstep
      cases hw : fl.m_wake with
      | false => rw [hw, if_neg (by simp)] at hstep; exact Option.noConfusion hstep
      | true =>
        rw [hw, if_pos rfl] at hstep
        injection hstep with hstep
        subst hstep
        exact Or.inl rfl
    | checking =>
      simp only [NPState.loopStep] at hstep
      cases mi with
      | true =>
        rw [if_pos rfl] at hstep
        injection hstep with hstep
        subst hstep
        exact Or.inl rfl
      | false =>
        rw [if_neg (by simp)] at hstep
        injection hstep with hstep
        subst hstep
        exact Or.inr ⟨rfl, rfl, rfl⟩
    | ticking =>
      simp only [NPState.loopStep] at hstep
      injection hstep with hstep
      subst hstep
      exact Or.inl rfl
    | stopped =>
      simp only [NPState.loopStep] at hstep
      exact Option.noConfusion hstep

/-- The check point is entered only by consuming a pending wakeup. -/
theorem NP_step_checking (s s' : NPState) (h : NPStep s s') (hc : s'.phase = .checking) :
    s.phase = .checking ∨
      (s.phase = .waiting ∧ s.m_notifiablelock.m_wake = true ∧
        s'.m_notifiablelock.m_wake = false) := by
  cases h with
  | wakeup => exact Or.inl hc
  | interrupt => exact Or.inl hc
  | loop _ hstep =>
    obtain ⟨fl, mi, ph, tk⟩ := s
    cases ph with
    | waiting =>
      simp only [NPState.loopStep] at hstep
      cases hw : fl.m_wake with
      | false => rw [hw, if_neg (by simp)] at hstep; exact Option.noConfusion hstep
      | true =>
        rw [hw, if_pos rfl] at hstep
        injection hstep with hstep
        subst hstep
        exact Or.inr ⟨rfl, rfl, rfl⟩
    | checking =>
      simp only [NPState.loopStep] at hstep
      cases mi with
      | true =>
        rw [if_pos rfl] at hstep
        injection hstep with hstep
        subst hstep
        exact absurd hc (by intro hx; cases hx)
      | false =>
        rw [if_neg (by simp)] at hstep
        injection hstep with hstep
        subst hstep
        exact absurd hc (by intro hx; cases hx)
    | ticking =>
      simp only [NPState.loopStep] at hstep
      injection hstep with hstep
      subst hstep
      exact absurd hc (by intro hx; cases hx)
    | stopped =>
      simp only [NPState.loopStep] at hstep
      exact Option.noConfusion hstep

/-- Once the loop has observed the flag and stopped, no step re-enters
it or ticks. -/
theorem NP_step_stopped (s s' : NPState) (h : NPStep s s') (hs : s.phase = .stopped) :
    s'.phase = .stopped ∧ s'.ticks = s.ticks := by
  cases h with
  | wakeup => exact ⟨hs, rfl⟩
  | interrupt => exact ⟨hs, rfl⟩
  | loop _ hstep =>
    obtain ⟨fl, mi, ph, tk⟩ := s
    simp only at hs
    subst hs
    simp only [NPState.loopStep] at hstep
    exact Option.noConfusion hstep

/-- From a loop blocked in `wait()`, `kill()` releases it: two loop
steps reach `stopped` without ticking. -/
theorem NP_kill_exits (s : NPState) (h : s.phase = .waiting) :
    ∃ s', Relation.ReflTransGen NPStep s.kill s' ∧ s'.phase = .stopped ∧
      s'.ticks = s.ticks := by
  obtain ⟨fl, mi, ph, tk⟩ := s
  simp only at h
  subst h
  refine ⟨⟨⟨false⟩, true, .stopped, tk⟩, ?_, rfl, rfl⟩
  exact Relation.ReflTransGen.head (NPStep.loop _ _ rfl)
    (Relation.ReflTransGen.single (NPStep.loop _ _ rfl))

/-! ## Claims C1–C3 -/

/-- C1: for every N ≥ 1, a sequence of N `notify()` calls on a fresh
flag collapses into the state of a single pending wakeup; `wait()` then
returns (consuming it), resets `m_wake` to false before returning, and
an immediately following `wait()` with no new signal blocks. -/
theorem C1_waitable_flag_coalesces (N : Nat) (hN : 1 ≤ N) :
    notifiable.notify^[N] notifiable.mkFresh = notifiable.mkFresh.notify ∧
    (notifiable.notify^[N] notifiable.mkFresh).canWait = true ∧
    (notifiable.notify^[N] notifiable.mkFresh).waitRet.m_wake = false ∧
    (notifiable.notify^[N] notifiable.mkFresh).waitRet.canWait = false := by
  refine ⟨notify_iterate _ N hN, ?_, rfl, rfl⟩
  rw [notify_iterate _ N hN]
  rfl

/-- Witness for C1 at N = 3. -/
theorem C1_waitable_flag_coalesces_witness :
    notifiable.notify^[3] notifiable.mkFresh = notifiable.mkFresh.notify ∧
    (notifiable.notify^[3] notifiable.mkFresh).canWait = true ∧
    (notifiable.notify^[3] notifiable.mkFresh).waitRet.m_wake = false ∧
    (notifiable.notify^[3] notifiable.mkFresh).waitRet.canWait = false :=
  C1_waitable_flag_coalesces 3 (by decide)

/-- C2: `kill()` sets the cancellation flag and also delivers a wakeup;
from a loop blocked in `wait()`, after `kill()` the loop is released and
exits without ticking; once stopped no step ticks; and a bare
`interrupt()` without a wakeup leaves the blocked loop unable to
advance. -/
theorem C2_kill_releases_loop (s : NPState) :
    (s.kill.m_interrupted = true ∧ s.kill.m_notifiablelock.m_wake = true) ∧
    (s.phase = .waiting →
      ∃ s', Relation.ReflTransGen NPStep s.kill s' ∧ s'.phase = .stopped ∧
        s'.ticks = s.ticks) ∧
    (∀ u u' : NPState, NPStep u u' → u.phase = .stopped →
      u'.phase = .stopped ∧ u'.ticks = u.ticks) ∧
    (s.phase = .waiting → s.m_notifiablelock.m_wake = false →
      s.interrupt.loopStep = none) := by
  refine ⟨⟨rfl, rfl⟩, NP_kill_exits s, NP_step_stopped, ?_⟩
  intro h1 h2
  obtain ⟨fl, mi, ph, tk⟩ := s
  simp only at h1 h2
  subst h1
  simp only [NPState.interrupt, NPState.loopStep, h2]
  rfl

/-- Witness for C2 at the freshly started pulser. -/
theorem C2_kill_releases_loop_witness :
    (NPState.init.kill.m_interrupted = true ∧
      NPState.init.kill.m_notifiablelock.m_wake = true) ∧
    (∃ s', Relation.ReflTransGen NPStep NPState.init.kill s' ∧ s'.phase = .stopped ∧
      s'.ticks = NPState.init.ticks) ∧
    NPState.init.interrupt.loopStep = none := by
  obtain ⟨a, b, _, d⟩ := C2_kill_releases_loop NPState.init
  exact ⟨a, b rfl, d rfl rfl⟩

/-- C3: a step increments the tick count exactly when it is the tick of
an iteration whose consumed wakeup found the flag clear (tick fires only
from an un-interrupted check, and the check is reached only by consuming
a pending wakeup); and K sequential `wakeup()` calls, each letting the
triggered tick finish, produce exactly K ticks, after which `kill()`
stops the loop with the count still K. -/
theorem C3_notified_ticks (K : Nat) :
    (∀ s s' : NPState, NPStep s s' →
      s'.ticks = s.ticks ∨
        (s'.ticks = s.ticks + 1 ∧ s.phase = .checking ∧ s.m_interrupted = false)) ∧
    (∀ s s' : NPState, NPStep s s' → s'.phase = .checking →
      s.phase = .checking ∨
        (s.phase = .waiting ∧ s.m_notifiablelock.m_wake = true ∧
          s'.m_notifiablelock.m_wake = false)) ∧
    (∀ s : NPState, s.phase = .checking → s.m_interrupted = false →
      s.loopStep = some { s with phase := .ticking, ticks := s.ticks + 1 }) ∧
    (NPState.seqRounds K = ⟨notifiable.mkFresh, false, .waiting, K⟩ ∧
      (NPState.seqRounds K).ticks = K ∧
      Relation.ReflTransGen NPStep NPState.init (NPState.seqRounds K) ∧
      (NPState.seqRounds K).kill.loopRun 2 = ⟨notifiable.mkFresh, true, .stopped, K⟩ ∧
      Relation.ReflTransGen NPStep NPState.init ((NPState.seqRounds K).kill.loopRun 2)) := by
  refine ⟨NP_step_ticks, NP_step_checking, ?_, NPState.seqRounds_eq K, ?_, NPState.seqRounds_reach K, ?_, ?_⟩
  · intro s h1 h2
    obtain ⟨fl, mi, ph, tk⟩ := s
    simp only at h1 h2
    subst h1
    subst h2
    rfl
  · rw [NPState.seqRounds_eq K]
  · rw [NPState.seqRounds_eq K]
    rfl
  · exact Relation.ReflTransGen.trans (NPState.seqRounds_reach K)
      (Relation.ReflTransGen.trans (NPState.kill_reach _) (NPState.loopRun_reach _ 2))

/-- Witness for C3 at K = 3, exercising the two per-step conjuncts on
concrete transitions. -/
theorem C3_notified_ticks_witness :
    (NPState.init.wakeup.ticks = NPState.init.ticks ∨
      (NPState.init.wakeup.ticks = NPState.init.ticks + 1 ∧
        NPState.init.phase = .checking ∧ NPState.init.m_interrupted = false)) ∧
    ((⟨⟨true⟩, false, .waiting, 0⟩ : NPState).phase = .checking ∨
      ((⟨⟨true⟩, false, .waiting, 0⟩ : NPState).phase = .waiting ∧
        (⟨⟨true⟩, false, .waiting, 0⟩ : NPState).m_notifiablelock.m_wake = true ∧
        (⟨⟨false⟩, false, .checking, 0⟩ : NPState).m_notifiablelock.m_wake = false)) ∧
    (⟨⟨false⟩, false, .checking, 4⟩ : NPState).loopStep =
      some ⟨⟨false⟩, false, .ticking, 5⟩ ∧
    (NPState.seqRounds 3).ticks = 3 := by
  refine ⟨(C3_notified_ticks 3).1 _ _ (NPStep.wakeup NPState.init), ?_,
    (C3_notified_ticks 3).2.2.1 ⟨⟨false⟩, false, .checking, 4⟩ rfl rfl,
    (C3_notified_ticks 3).2.2.2.2.1⟩
  exact (C3_notified_ticks 3).2.1 ⟨⟨true⟩, false, .waiting, 0⟩ ⟨⟨false⟩, false, .checking, 0⟩
    (NPStep.loop _ _ rfl) rfl

/-! ## Claims C4–C6 -/

/-- C4: a `ClockPulser` never ticks before one full interval has
elapsed since start (invariant over all interleavings); from any sleep
with the flag already set, the loop still completes the full sleep,
then stops without ticking and terminates; in particular interrupting
immediately after start yields exactly one sleep-and-check cycle, zero
ticks, and a terminated loop. -/
theorem C4_clock_pulser (T : Nat) :
    (∀ s : CPState, Relation.ReflTransGen (CPStep T) CPState.init s →
      0 < s.ticks → T ≤ s.now) ∧
    (∀ s : CPState, s.phase = .sleeping → s.m_interrupted = true →
      s.loopRun T 2 = ⟨true, .stopped, s.ticks, s.now + T⟩ ∧
        (s.loopRun T 2).loopStep T = none) ∧
    (CPState.init.interrupt.loopRun T 2 = ⟨true, .stopped, 0, 0 + T⟩ ∧
      (CPState.init.interrupt.loopRun T 2).ticks = 0 ∧
      (CPState.init.interrupt.loopRun T 2).loopStep T = none) := by
  refine ⟨fun s hr => (CPInv_reach T s hr).2, ?_, rfl, rfl, rfl⟩
  intro s h1 h2
  obtain ⟨mi, ph, tk, nw⟩ := s
  simp only at h1 h2
  subst h1
  subst h2
  exact ⟨rfl, rfl⟩

/-- Witness for C4 at T = 5: a two-step trace reaching the first tick
shows the invariant hypothesis discharged on a concrete reachable
state, and a concrete interrupted sleep. -/
theorem C4_clock_pulser_witness :
    5 ≤ (⟨false, .ticking, 1, 5⟩ : CPState).now ∧
    (⟨true, .sleeping, 2, 7⟩ : CPState).loopRun 5 2 =
      ⟨true, .stopped, 2, 7 + 5⟩ ∧
    CPState.init.interrupt.loopRun 5 2 = ⟨true, .stopped, 0, 0 + 5⟩ := by
  refine ⟨(C4_clock_pulser 5).1 ⟨false, .ticking, 1, 5⟩ ?_ (by decide),
    ((C4_clock_pulser 5).2.1 ⟨true, .sleeping, 2, 7⟩ rfl rfl).1,
    ((C4_clock_pulser 5).2.2).1⟩
  exact Relation.ReflTransGen.head (CPStep.loop _ _ rfl)
    (Relation.ReflTransGen.single (CPStep.loop _ _ rfl))

/-- C5: after a tick the delayed loop first moves into its post-tick
sleep and only re-arms its wait after a full delay `D` has been added to
the clock; bursts of `wakeup()` calls collapse into a single pending
wakeup; and in every reachable state consecutive recorded tick times are
at least `D` apart. -/
theorem C5_delayed_pulser (D : Nat) :
    (∀ s : DNPState, s.phase = .ticking →
      s.loopStep D = some { s with phase := .delaying }) ∧
    (∀ s : DNPState, s.phase = .delaying →
      s.loopStep D = some { s with phase := .waiting, now := s.now + D }) ∧
    (∀ (s : DNPState) (k : Nat), 1 ≤ k → DNPState.wakeup^[k] s = s.wakeup) ∧
    (∀ s : DNPState, Relation.ReflTransGen (DNPStep D) DNPState.init s →
      gapOK D s.tickTimes) := by
  refine ⟨?_, ?_, ?_, fun s hr => (DNPInv_reach D s hr).1⟩
  · intro s h
    obtain ⟨fl, mi, ph, tk, nw, tt⟩ := s
    simp only at h
    subst h
    rfl
  · intro s h
    obtain ⟨fl, mi, ph, tk, nw, tt⟩ := s
    simp only at h
    subst h
    rfl
  · intro s k hk
    induction k with
    | zero => exact absurd hk (by decide)
    | succ m ih =>
      rcases Nat.eq_zero_or_pos m with hm | hm
      · subst hm; rfl
      · rw [Function.iterate_succ_apply', ih hm]
        rfl

/-- Witness for C5 at D = 4 on concrete states. -/
theorem C5_delayed_pulser_witness :
    (⟨⟨false⟩, false, .ticking, 1, 9, [9]⟩ : DNPState).loopStep 4 =
      some ⟨⟨false⟩, false, .delaying, 1, 9, [9]⟩ ∧
    (⟨⟨false⟩, false, .delaying, 1, 9, [9]⟩ : DNPState).loopStep 4 =
      some ⟨⟨false⟩, false, .waiting, 1, 9 + 4, [9]⟩ ∧
    DNPState.wakeup^[2] DNPState.init = DNPState.init.wakeup ∧
    gapOK 4 DNPState.init.tickTimes :=
  ⟨(C5_delayed_pulser 4).1 _ rfl, (C5_delayed_pulser 4).2.1 _ rfl,
    (C5_delayed_pulser 4).2.2.1 DNPState.init 2 (by decide),
    (C5_delayed_pulser 4).2.2.2 DNPState.init Relation.ReflTransGen.refl⟩

/-- C6: the timer's callback fires at most once; interrupting at any
reachable moment strictly before `T` has elapsed prevents it from ever
firing; with no interrupt the run routine fires exactly once, at time
`≥ T`, and terminates; and `delete this` has run exactly when the run
routine has finished, the check-and-delete tail running regardless of
the flag. -/
theorem C6_self_deleting_timer (T : Nat) :
    (∀ s : SDTState, Relation.ReflTransGen (SDTStep T) SDTState.init s →
      s.fires ≤ 1) ∧
    (∀ s s' : SDTState, Relation.ReflTransGen (SDTStep T) SDTState.init s →
      s.now < T → Relation.ReflTransGen (SDTStep T) s.interrupt s' →
      s'.fires = 0) ∧
    (SDTState.init.loopRun T 2 = ⟨false, .done, 1, some (0 + T), true, 0 + T⟩ ∧
      T ≤ (SDTState.init.loopRun T 2).now ∧
      (SDTState.init.loopRun T 2).loopStep T = none) ∧
    (∀ s : SDTState, Relation.ReflTransGen (SDTStep T) SDTState.init s →
      (s.deleted = true ↔ s.phase = .done)) ∧
    (∀ s : SDTState, s.phase = .checking →
      ∃ s', s.loopStep T = some s' ∧ s'.deleted = true ∧ s'.phase = .done) := by
  refine ⟨fun s hr => (SDTInv_reach T s hr).2.1, ?_, ⟨rfl, ?_, rfl⟩,
    fun s hr => (SDTInv_reach T s hr).2.2.2.1, ?_⟩
  · intro s s' hr hlt hr'
    obtain ⟨i1, i2, i3, i4, i5⟩ := SDTInv_reach T s hr
    have hfi : s.fires = 0 := by
      by_cases hph : s.phase = .done
      · exact absurd (i1 (by rw [hph]; intro hc; cases hc)) (Nat.not_le_of_lt hlt)
      · exact i3 hph
    have := SDT_interrupted_reach T s.interrupt s' rfl hr'
    rw [this.2]
    exact hfi
  · show T ≤ 0 + T
    omega
  · intro s h
    obtain ⟨mi, ph, fi, ft, de, nw⟩ := s
    simp only at h
    subst h
    exact ⟨_, rfl, rfl, rfl⟩

/-- Witness for C6 at T = 10. -/
theorem C6_self_deleting_timer_witness :
    SDTState.init.fires ≤ 1 ∧
    SDTState.init.interrupt.fires = 0 ∧
    SDTState.init.loopRun 10 2 = ⟨false, .done, 1, some (0 + 10), true, 0 + 10⟩ ∧
    (SDTState.init.deleted = true ↔ SDTState.init.phase = .done) ∧
    (∃ s', (⟨false, .checking, 0, none, false, 10⟩ : SDTState).loopStep 10 = some s' ∧
      s'.deleted = true ∧ s'.phase = .done) :=
  ⟨(C6_self_deleting_timer 10).1 _ Relation.ReflTransGen.refl,
    (C6_self_deleting_timer 10).2.1 SDTState.init _ Relation.ReflTransGen.refl
      (by decide) Relation.ReflTransGen.refl,
    ((C6_self_deleting_timer 10).2.2.1).1,
    (C6_self_deleting_timer 10).2.2.2.1 _ Relation.ReflTransGen.refl,
    (C6_self_deleting_timer 10).2.2.2.2 _ rfl⟩

/-! ## Helper lemmas for C7: the flag is never cleared by any step -/

/-- No `ClockPulser` loop step modifies `m_interrupted`. -/
theorem CP_loopStep_flag (T : Nat) (s s' : CPState) (h : s.loopStep T = some s') :
    s'.m_interrupted = s.m_interrupted := by
  obtain ⟨mi, ph, tk, nw⟩ := s
  cases ph with
  | sleeping =>
    simp only [CPState.loopStep] at h
    injection h with h
    subst h
    rfl
  | checking =>
    simp only [CPState.loopStep] at h
    cases mi with
    | true =>
      rw [if_pos rfl] at h
      injection h with h
      subst h
      rfl
    | false =>
      rw [if_neg (by simp)] at h
      injection h with h
      subst h
      rfl
  | ticking =>
    simp only [CPState.loopStep] at h
    injection h with h
    subst h
    rfl
  | stopped =>
    simp only [CPState.loopStep] at h
    exact Option.noConfusion h

/-- No `DelayedNotifiedPulser` loop step modifies `m_interrupted`. -/
theorem DNP_loopStep_flag (D : Nat) (s s' : DNPState) (h : s.loopStep D = some s') :
    s'.m_interrupted = s.m_interrupted := by
  obtain ⟨fl, mi, ph, tk, nw, tt⟩ := s
  cases ph with
  | waiting =>
    simp only [DNPState.loopStep] at h
    cases hw : fl.m_wake with
    | false => rw [hw, if_neg (by simp)] at h; exact Option.noConfusion h
    | true =>
      rw [hw, if_pos rfl] at h
      injection h with h
      subst h
      rfl
  | checking =>
    simp only [DNPState.loopStep] at h
    cases mi with
    | true =>
      rw [if_pos rfl] at h
      injection h with h
      subst h
      rfl
    | false =>
      rw [if_neg (by simp)] at h
      injection h with h
      subst h
      rfl
  | ticking =>
    simp only [DNPState.loopStep] at h
    injection h with h
    subst h
    rfl
  | delaying =>
    simp only [DNPState.loopStep] at h
    injection h with h
    subst h
    rfl
  | stopped =>
    simp only [DNPState.loopStep] at h
    exact Option.noConfusion h

/-- No timer run-routine step modifies `m_interrupted`. -/
theorem SDT_loopStep_flag (T : Nat) (s s' : SDTState) (h : s.loopStep T = some s') :
    s'.m_interrupted = s.m_interrupted := by
  obtain ⟨mi, ph, fi, ft, de, nw⟩ := s
  cases ph with
  | sleeping =>
    simp only [SDTState.loopStep] at h
    injection h with h
    subst h
    rfl
  | checking =>
    simp only [SDTState.loopStep] at h
    injection h with h
    subst h
    rfl
  | done =>
    simp only [SDTState.loopStep] at h
    exact Option.noConfusion h

/-- C7: across the whole pulser family, the cancellation flag starts
false, `interrupt()` (and `kill()`) only ever set it to true and are
idempotent, and no transition of any of the four loop systems ever
resets it to false. -/
theorem C7_interrupt_flag_monotonic :
    (NPState.init.m_interrupted = false ∧ CPState.init.m_interrupted = false ∧
      DNPState.init.m_interrupted = false ∧ SDTState.init.m_interrupted = false) ∧
    (∀ s : NPState, s.interrupt.m_interrupted = true ∧
      s.interrupt.interrupt = s.interrupt ∧ s.kill.m_interrupted = true) ∧
    (∀ s : CPState, s.interrupt.m_interrupted = true ∧
      s.interrupt.interrupt = s.interrupt) ∧
    (∀ s : DNPState, s.interrupt.m_interrupted = true ∧
      s.interrupt.interrupt = s.interrupt ∧ s.kill.m_interrupted = true) ∧
    (∀ s : SDTState, s.interrupt.m_interrupted = true ∧
      s.interrupt.interrupt = s.interrupt) ∧
    (∀ s s' : NPState, NPStep s s' → s.m_interrupted = true →
      s'.m_interrupted = true) ∧
    (∀ (T : Nat) (s s' : CPState), CPStep T s s' → s.m_interrupted = true →
      s'.m_interrupted = true) ∧
    (∀ (D : Nat) (s s' : DNPState), DNPStep D s s' → s.m_interrupted = true →
      s'.m_interrupted = true) ∧
    (∀ (T : Nat) (s s' : SDTState), SDTStep T s s' → s.m_interrupted = true →
      s'.m_interrupted = true) := by
  refine ⟨⟨rfl, rfl, rfl, rfl⟩, fun s => ⟨rfl, rfl, rfl⟩, fun s => ⟨rfl, rfl⟩,
    fun s => ⟨rfl, rfl, rfl⟩, fun s => ⟨rfl, rfl⟩, ?_, ?_, ?_, ?_⟩
  · intro s s' h hi
    cases h with
    | wakeup => exact hi
    | interrupt => rfl
    | loop _ hstep => rw [NP_loopStep_flag _ _ hstep]; exact hi
  · intro T s s' h hi
    cases h with
    | interrupt => rfl
    | loop _ hstep => rw [CP_loopStep_flag T _ _ hstep]; exact hi
  · intro D s s' h hi
    cases h with
    | wakeup => exact hi
    | interrupt => rfl
    | elapse d => exact hi
    | loop _ hstep => rw [DNP_loopStep_flag D _ _ hstep]; exact hi
  · intro T s s' h hi
    cases h with
    | interrupt => rfl
    | loop _ hstep => rw [SDT_loopStep_flag T _ _ hstep]; exact hi

/-- Witness for C7 on concrete states and steps. -/
theorem C7_interrupt_flag_monotonic_witness :
    NPState.init.m_interrupted = false ∧
    NPState.init.interrupt.interrupt = NPState.init.interrupt ∧
    NPState.init.interrupt.wakeup.m_interrupted = true ∧
    CPState.init.interrupt.interrupt.m_interrupted = true ∧
    DNPState.init.interrupt.wakeup.m_interrupted = true ∧
    SDTState.init.interrupt.interrupt.m_interrupted = true := by
  obtain ⟨h0, h1, h2, h3, h4, h5, h6, h7, h8⟩ := C7_interrupt_flag_monotonic
  exact ⟨h0.1, (h1 NPState.init).2.1,
    h5 NPState.init.interrupt _ (NPStep.wakeup _) (h1 NPState.init).1,
    h6 1 CPState.init.interrupt _ (CPStep.interrupt _) (h2 CPState.init).1,
    h7 1 DNPState.init.interrupt _ (DNPStep.wakeup _) (h3 DNPState.init).1,
    h8 1 SDTState.init.interrupt _ (SDTStep.interrupt _) (h4 SDTState.init).1⟩

/-- C8: `join()` on a started worker succeeds and returns only once the
background routine has completed, consuming the handle; `join()` on a
never-started, already-joined, or detached worker surfaces the
`std::system_error` of the underlying handle rather than silently
succeeding. -/
theorem C8_join_contract :
    PolymorphicThread.mkFresh.join = .error .invalidHandle ∧
    (∀ w : PolymorphicThread,
      w.start.join = .ok ⟨⟨false⟩, true⟩ ∧ w.start.active = true) ∧
    (∀ w w' : PolymorphicThread, w.join = .ok w' →
      w'.runReturned = true ∧ w'.join = .error .invalidHandle ∧ w'.active = false) ∧
    (∀ w w' : PolymorphicThread, w.detach = .ok w' →
      w'.join = .error .invalidHandle ∧ w'.active = false) := by
  refine ⟨rfl, fun w => ⟨rfl, rfl⟩, ?_, ?_⟩
  · intro w w' h
    obtain ⟨⟨j⟩, r⟩ := w
    cases j with
    | false => exact Except.noConfusion h
    | true =>
      simp only [PolymorphicThread.join, if_pos rfl] at h
      injection h with h
      subst h
      exact ⟨rfl, rfl, rfl⟩
  · intro w w' h
    obtain ⟨⟨j⟩, r⟩ := w
    cases j with
    | false => exact Except.noConfusion h
    | true =>
      simp only [PolymorphicThread.detach, if_pos rfl] at h
      injection h with h
      subst h
      exact ⟨rfl, rfl⟩

/-- Witness for C8 on a started-then-joined and a detached worker. -/
theorem C8_join_contract_witness :
    PolymorphicThread.mkFresh.join = .error .invalidHandle ∧
    PolymorphicThread.mkFresh.start.join =
      .ok (⟨⟨false⟩, true⟩ : PolymorphicThread) ∧
    ((⟨⟨false⟩, true⟩ : PolymorphicThread).join = .error .invalidHandle) ∧
    ((⟨⟨false⟩, false⟩ : PolymorphicThread).join = .error .invalidHandle) := by
  obtain ⟨h1, h2, h3, h4⟩ := C8_join_contract
  exact ⟨h1, (h2 PolymorphicThread.mkFresh).1,
    (h3 PolymorphicThread.mkFresh.start _ (h2 PolymorphicThread.mkFresh).1).2.1,
    (h4 (⟨⟨true⟩, false⟩ : PolymorphicThread) _ rfl).1⟩

/-! ## Helper lemmas for C9 -/

theorem UnionFind.merge_find_eq [DecidableEq T] (u : UnionFind T) (a b : T) :
    ((u.merge a b).find a).1 = ((u.merge a b).find b).1 := by
  rw [UnionFind.find_fst, UnionFind.find_fst, UnionFind.merge_root, UnionFind.merge_root,
    if_pos rfl]
  by_cases h : u.root a = u.root b
  · rw [if_pos h]
  · rw [if_neg h]

theorem UnionFind.merge_root_same [DecidableEq T] (u : UnionFind T) (a b : T)
    (h : u.root a = u.root b) (x : T) : (u.merge a b).root x = u.root x := by
  rw [UnionFind.merge_root]
  by_cases hx : u.root x = u.root b
  · rw [if_pos hx]
    exact h.trans hx.symm
  · rw [if_neg hx]

theorem UnionFind.merge_root_left [DecidableEq T] (u : UnionFind T) (a b : T) :
    (u.merge a b).root a = u.root a := by
  rw [UnionFind.merge_root]
  exact ite_self _

theorem UnionFind.merge_root_right [DecidableEq T] (u : UnionFind T) (a b : T) :
    (u.merge a b).root b = u.root a := by
  rw [UnionFind.merge_root, if_pos rfl]

theorem UnionFind.merge_idem [DecidableEq T] (u : UnionFind T) (a b x : T) :
    ((u.merge a b).merge a b).root x = (u.merge a b).root x :=
  UnionFind.merge_root_same (u.merge a b) a b
    ((UnionFind.merge_root_left u a b).trans
      (UnionFind.merge_root_right u a b).symm) x

theorem UnionFind.empty_find [DecidableEq T] (a : T) :
    ((UnionFind.emptyUF T).find a).1 = a := by
  rw [UnionFind.find_fst]
  exact rootOf_none _ _ a rfl

theorem UnionFind.find_partition [DecidableEq T] (u : UnionFind T) (c x y : T) :
    ((u.find c).2.root x = (u.find c).2.root y) ↔ (u.root x = u.root y) := by
  rw [UnionFind.find_snd_root, UnionFind.find_snd_root]

/-- C9: after `merge(a, b)`, `find(a)` and `find(b)` return the same
root; merging two elements already in one component leaves the partition
unchanged, so `merge` is idempotent at the partition level; `find` on a
fresh structure, or on any element never passed to `merge`, returns the
element itself; and `find` (path compression included) never changes
which elements share a component. -/
theorem C9_union_find (T : Type) (inst : DecidableEq T) :
    (∀ (u : UnionFind T) (a b : T),
      ((u.merge a b).find a).1 = ((u.merge a b).find b).1) ∧
    (∀ (u : UnionFind T) (a b : T), u.root a = u.root b →
      ∀ x, (u.merge a b).root x = u.root x) ∧
    (∀ (u : UnionFind T) (a b x : T),
      ((u.merge a b).merge a b).root x = (u.merge a b).root x) ∧
    (∀ a : T, ((UnionFind.emptyUF T).find a).1 = a) ∧
    (∀ (l : List (T × T)) (a : T), (∀ p ∈ l, p.1 ≠ a ∧ p.2 ≠ a) →
      ((UnionFind.mergeList T l).find a).1 = a) ∧
    (∀ (u : UnionFind T) (c x y : T),
      ((u.find c).2.root x = (u.find c).2.root y) ↔ (u.root x = u.root y)) :=
  ⟨UnionFind.merge_find_eq, UnionFind.merge_root_same, UnionFind.merge_idem,
    UnionFind.empty_find, UnionFind.mergeList_unmerged, UnionFind.find_partition⟩

/-- Witness for C9 over `Nat` on concrete structures. -/
theorem C9_union_find_witness :
    (((UnionFind.emptyUF Nat).merge 0 1).find 0).1 =
      (((UnionFind.emptyUF Nat).merge 0 1).find 1).1 ∧
    ((UnionFind.emptyUF Nat).merge 2 2).root 5 = (UnionFind.emptyUF Nat).root 5 ∧
    ((UnionFind.mergeList Nat []).find 7).1 = 7 := by
  obtain ⟨h1, h2, _, _, h5, _⟩ := C9_union_find Nat inferInstance
  exact ⟨h1 _ 0 1, h2 _ 2 2 rfl 5, h5 [] 7 (by simp)⟩

/-- C10: `get()` raises exactly when no instance exists; a fresh
`Singleton` has none; after `init` succeeds, `get()` returns the
constructed instance and `initialized()` is true; `kill()` resets the
state so `get()` raises again. -/
theorem C10_singleton_lifecycle (T : Type) :
    (∀ s : SingletonState T, (∃ e, s.get = .error e) ↔ s._singleton = none) ∧
    (SingletonState.mkFresh T).get = .error "ERROR: Access to unitialized object." ∧
    (∀ (s : SingletonState T) (v : T),
      (s.init v).1 = v ∧ (s.init v).2.get = .ok v ∧
        (s.init v).2.initialized = true) ∧
    (∀ s : SingletonState T,
      s.kill.get = .error "ERROR: Access to unitialized object." ∧
        s.kill.initialized = false) ∧
    (∀ s : SingletonState T, s.initialized = true ↔ s._singleton ≠ none) := by
  refine ⟨?_, rfl, fun s v => ⟨rfl, rfl, rfl⟩, fun s => ⟨rfl, rfl⟩, ?_⟩
  · intro s
    obtain ⟨o⟩ := s
    cases o with
    | none => exact ⟨fun _ => rfl, fun _ => ⟨_, rfl⟩⟩
    | some v =>
      constructor
      · rintro ⟨e, he⟩
        exact Except.noConfusion he
      · intro h
        exact Option.noConfusion h
  · intro s
    obtain ⟨o⟩ := s
    cases o with
    | none => simp [SingletonState.initialized]
    | some v => simp [SingletonState.initialized]

/-- Witness for C10 over `Nat` on the full lifecycle. -/
theorem C10_singleton_lifecycle_witness :
    (SingletonState.mkFresh Nat).get =
      .error "ERROR: Access to unitialized object." ∧
    ((SingletonState.mkFresh Nat).init 5).2.get = .ok 5 ∧
    ((SingletonState.mkFresh Nat).init 5).2.kill.get =
      .error "ERROR: Access to unitialized object." := by
  obtain ⟨_, h2, h3, h4, _⟩ := C10_singleton_lifecycle Nat
  exact ⟨h2, (h3 _ 5).2.1, (h4 _).1⟩

end Libtools
